import Mathlib

/-!
Shallow embedding of the sol-parallel-transfer repository (src/distribute.ts).

The script distributes a fixed SOL amount to a list of recipient addresses:
it chunks the recipients into batches, builds one transfer instruction per
recipient, submits each batch as one transaction with bounded retry and
backoff, processes batches in bounded-concurrency groups, and aggregates
successful/failed counts.

Modelling conventions:
- JavaScript numbers that hold token amounts are modelled as exact rationals
  (the decimal literals 0.01 etc. are taken at face value, as the spec does).
- The network (sendAndConfirmTransaction) is an oracle `net : Nat -> AttemptResult`
  giving the outcome of each attempt; the PublicKey constructor of the external
  web3.js library is an abstract decoder parameter.
- Timing (sleep) and submissions are recorded as explicit trace events.
-/

namespace SolDistribute

/-- Lamports per SOL: the web3.js constant used at lines 124 and 231 of
src/distribute.ts. -/
def LAMPORTS_PER_SOL : ℕ := 1000000000

/-- Max recipients per transaction (src/distribute.ts line 20). -/
def BATCH_SIZE : ℕ := 10

/-- Number of batches to process in parallel (src/distribute.ts line 21). -/
def CONCURRENT_BATCHES : ℕ := 5

/-- Maximum retry attempts per batch (src/distribute.ts line 22). -/
def MAX_RETRIES : ℕ := 3

/-- JavaScript Array.prototype.slice with integer arguments: negative indices
count from the end, both indices are clamped to [0, length]. -/
def jsSlice (array : List α) (start stop : ℤ) : List α :=
  let len : ℤ := array.length
  let s : ℤ := if start < 0 then max (len + start) 0 else min start len
  let e : ℤ := if stop < 0 then max (len + stop) 0 else min stop len
  (array.drop s.toNat).take (e - s).toNat

/-- Direct translation of the loop in chunkArray (src/distribute.ts lines 98-104):
`for (let i = 0; i < array.length; i += size) chunks.push(array.slice(i, i + size))`.
The loop is given explicit fuel; `none` means the fuel was exhausted, and
`(forall fuel, ... = none)` means the JS loop does not terminate. -/
def chunkArrayFuel (fuel : ℕ) (array : List α) (size : ℤ) (i : ℤ)
    (chunks : List (List α)) : Option (List (List α)) :=
  match fuel with
  | 0 => none
  | f + 1 =>
    if i < (array.length : ℤ) then
      chunkArrayFuel f array size (i + size) (chunks ++ [jsSlice array i (i + size)])
    else
      some chunks

/-- chunkArray (src/distribute.ts lines 98-104) as a total function of a
natural-number size. For size = 0 the JS loop never terminates on a nonempty
array (see chunkArrayFuel); this total version returns [] there, and every
theorem about it assumes 0 < size. -/
def chunkArray (array : List α) (size : ℕ) : List (List α) :=
  match array, size with
  | _, 0 => []
  | [], _ + 1 => []
  | a :: rest, s + 1 =>
      ((a :: rest).take (s + 1)) :: chunkArray ((a :: rest).drop (s + 1)) (s + 1)
termination_by array.length
decreasing_by simp; omega

theorem chunkArray_nil (size : ℕ) : chunkArray ([] : List α) size = [] := by
  cases size <;> simp [chunkArray]

theorem chunkArray_cons (a : α) (rest : List α) (s : ℕ) :
    chunkArray (a :: rest) (s + 1) =
      ((a :: rest).take (s + 1)) :: chunkArray ((a :: rest).drop (s + 1)) (s + 1) := by
  simp [chunkArray]

theorem chunkArray_join_aux (s : ℕ) (n : ℕ) :
    ∀ xs : List α, xs.length ≤ n → (chunkArray xs (s + 1)).flatten = xs := by
  induction n with
  | zero =>
    intro xs h
    have : xs = [] := List.length_eq_zero.mp (Nat.le_zero.mp h)
    subst this
    simp [chunkArray_nil]
  | succ n ih =>
    intro xs h
    match xs with
    | [] => simp [chunkArray_nil]
    | a :: rest =>
      rw [chunkArray_cons]
      have hlen : ((a :: rest).drop (s + 1)).length ≤ n := by
        simp only [List.length_drop, List.length_cons]
        simp only [List.length_cons] at h
        omega
      rw [List.flatten_cons, ih _ hlen, List.take_append_drop]

/-- Concatenating the chunks in order gives back the original list. -/
theorem chunkArray_join (s : ℕ) (xs : List α) : (chunkArray xs (s + 1)).flatten = xs :=
  chunkArray_join_aux s xs.length xs le_rfl

theorem chunkArray_length_aux (s : ℕ) (n : ℕ) :
    ∀ xs : List α, xs.length ≤ n →
      (chunkArray xs (s + 1)).length = (xs.length + s) / (s + 1) := by
  induction n with
  | zero =>
    intro xs h
    have : xs = [] := List.length_eq_zero.mp (Nat.le_zero.mp h)
    subst this
    simp [chunkArray_nil, Nat.div_eq_of_lt (by omega : s < s + 1)]
  | succ n ih =>
    intro xs h
    match xs with
    | [] => simp [chunkArray_nil, Nat.div_eq_of_lt (by omega : s < s + 1)]
    | a :: rest =>
      rw [chunkArray_cons]
      have hlen : ((a :: rest).drop (s + 1)).length ≤ n := by
        simp only [List.length_drop, List.length_cons]
        simp only [List.length_cons] at h
        omega
      rw [List.length_cons, ih _ hlen]
      simp only [List.length_drop, List.length_cons]
      rcases Nat.lt_or_ge (rest.length + 1) (s + 1) with hc | hc
      · have h1 : rest.length + 1 - (s + 1) = 0 := by omega
        rw [h1]
        rw [Nat.zero_add, Nat.div_eq_of_lt (by omega : s < s + 1)]
        have h2 : (rest.length + 1 + s) / (s + 1) = 1 := by
          rw [Nat.div_eq_of_lt_le] <;> omega
        omega
      · have h1 : rest.length + 1 - (s + 1) + s = rest.length := by omega
        rw [h1]
        have h2 : rest.length + 1 + s = rest.length - s + (s + 1) * 1 + s * 1 := by omega
        have h3 : (rest.length + 1 + s) / (s + 1) = rest.length / (s + 1) + 1 := by
          have : rest.length + 1 + s = rest.length + (s + 1) := by omega
          rw [this, Nat.add_div_right _ (by omega)]
        omega

/-- The number of chunks is the ceiling of length / size. -/
theorem chunkArray_length (s : ℕ) (xs : List α) :
    (chunkArray xs (s + 1)).length = (xs.length + s) / (s + 1) :=
  chunkArray_length_aux s xs.length xs le_rfl

theorem chunkArray_mem_aux (s : ℕ) (n : ℕ) :
    ∀ xs : List α, xs.length ≤ n →
      ∀ c ∈ chunkArray xs (s + 1), c ≠ [] ∧ c.length ≤ s + 1 := by
  induction n with
  | zero =>
    intro xs h
    have : xs = [] := List.length_eq_zero.mp (Nat.le_zero.mp h)
    subst this
    simp [chunkArray_nil]
  | succ n ih =>
    intro xs h c hc
    match xs with
    | [] => simp [chunkArray_nil] at hc
    | a :: rest =>
      rw [chunkArray_cons] at hc
      rcases List.mem_cons.mp hc with h1 | h1
      · subst h1
        constructor
        · simp
        · exact (List.length_take _ _).le.trans (min_le_left _ _)
      · have hlen : ((a :: rest).drop (s + 1)).length ≤ n := by
          simp only [List.length_drop, List.length_cons]
          simp only [List.length_cons] at h
          omega
        exact ih _ hlen c h1

/-- Every chunk is nonempty and has at most size elements. -/
theorem chunkArray_mem (s : ℕ) (xs : List α) :
    ∀ c ∈ chunkArray xs (s + 1), c ≠ [] ∧ c.length ≤ s + 1 :=
  chunkArray_mem_aux s xs.length xs le_rfl

theorem chunkArray_full_aux (s : ℕ) (n : ℕ) :
    ∀ xs : List α, xs.length ≤ n →
      ∀ i, i + 1 < (chunkArray xs (s + 1)).length →
        ((chunkArray xs (s + 1)).getD i []).length = s + 1 := by
  induction n with
  | zero =>
    intro xs h
    have : xs = [] := List.length_eq_zero.mp (Nat.le_zero.mp h)
    subst this
    simp [chunkArray_nil]
  | succ n ih =>
    intro xs h i hi
    match xs with
    | [] => simp [chunkArray_nil] at hi
    | a :: rest =>
      rw [chunkArray_cons] at hi ⊢
      match i with
      | 0 =>
        simp only [List.getD_cons_zero]
        simp only [List.length_cons] at hi
        have hne : chunkArray ((a :: rest).drop (s + 1)) (s + 1) ≠ [] := by
          intro hnil
          rw [hnil] at hi
          simp at hi
        have hdrop : (a :: rest).drop (s + 1) ≠ [] := by
          intro hnil
          rw [hnil, chunkArray_nil] at hne
          exact hne rfl
        have hlen : s + 1 < (a :: rest).length := by
          by_contra hcon
          push_neg at hcon
          exact hdrop (List.drop_eq_nil_of_le hcon)
        rw [List.length_take]
        omega
      | i + 1 =>
        simp only [List.getD_cons_succ]
        have hlen : ((a :: rest).drop (s + 1)).length ≤ n := by
          simp only [List.length_drop, List.length_cons]
          simp only [List.length_cons] at h
          omega
        exact ih _ hlen i (by simpa using hi)

/-- Every chunk except possibly the last has exactly size elements. -/
theorem chunkArray_full (s : ℕ) (xs : List α) :
    ∀ i, i + 1 < (chunkArray xs (s + 1)).length →
      ((chunkArray xs (s + 1)).getD i []).length = s + 1 :=
  chunkArray_full_aux s xs.length xs le_rfl

theorem chunkArray_of_ne_nil (ys : List α) (s : ℕ) (h : ys ≠ []) :
    chunkArray ys (s + 1) = ys.take (s + 1) :: chunkArray (ys.drop (s + 1)) (s + 1) := by
  match ys with
  | [] => exact absurd rfl h
  | a :: rest => exact chunkArray_cons a rest s

theorem jsSlice_take_drop (xs : List α) (i m : ℕ) (h : i ≤ xs.length) :
    jsSlice xs (i : ℤ) ((i : ℤ) + (m : ℤ)) = (xs.drop i).take m := by
  have h0 : ¬ ((i : ℤ) < 0) := by omega
  have h1 : ¬ ((i : ℤ) + (m : ℤ) < 0) := by omega
  simp only [jsSlice, if_neg h0, if_neg h1]
  have h2 : min (i : ℤ) (xs.length : ℤ) = (i : ℤ) := by omega
  rw [h2]
  have h3 : ((i : ℤ)).toNat = i := by omega
  rw [h3]
  have h4 : (min ((i : ℤ) + (m : ℤ)) (xs.length : ℤ) - (i : ℤ)).toNat =
      min m (xs.length - i) := by omega
  rw [h4]
  rw [List.take_eq_take]
  simp only [List.length_drop]
  omega

theorem chunkArrayFuel_spec (s : ℕ) (xs : List α) :
    ∀ n i acc, xs.length - i ≤ n →
      ∃ fuel, chunkArrayFuel fuel xs ((s : ℤ) + 1) (i : ℤ) acc =
        some (acc ++ chunkArray (xs.drop i) (s + 1)) := by
  intro n
  induction n with
  | zero =>
    intro i acc h
    refine ⟨1, ?_⟩
    have hge : ¬ ((i : ℤ) < (xs.length : ℤ)) := by omega
    rw [chunkArrayFuel, if_neg hge, List.drop_eq_nil_of_le (by omega), chunkArray_nil,
      List.append_nil]
  | succ n ih =>
    intro i acc h
    by_cases hlt : i < xs.length
    · obtain ⟨fuel, hf⟩ :=
        ih (i + (s + 1)) (acc ++ [jsSlice xs (i : ℤ) ((i : ℤ) + ((s : ℤ) + 1))]) (by omega)
      refine ⟨fuel + 1, ?_⟩
      rw [chunkArrayFuel, if_pos (by exact_mod_cast hlt)]
      have hcast : (i : ℤ) + ((s : ℤ) + 1) = ((i + (s + 1) : ℕ) : ℤ) := by push_cast; ring
      rw [hcast] at hf ⊢
      rw [hf]
      have hslice : jsSlice xs (i : ℤ) (((i + (s + 1) : ℕ)) : ℤ) = (xs.drop i).take (s + 1) := by
        have h5 := jsSlice_take_drop xs i (s + 1) (le_of_lt hlt)
        have h6 : (i : ℤ) + ((s + 1 : ℕ) : ℤ) = ((i + (s + 1) : ℕ) : ℤ) := by push_cast; ring
        rw [h6] at h5
        exact h5
      rw [hslice]
      have hdropne : xs.drop i ≠ [] := by
        intro hnil
        have := List.drop_eq_nil_iff.mp hnil
        omega
      rw [chunkArray_of_ne_nil _ s hdropne]
      rw [List.drop_drop]
      simp
    · refine ⟨1, ?_⟩
      have hge : ¬ ((i : ℤ) < (xs.length : ℤ)) := by omega
      rw [chunkArrayFuel, if_neg hge, List.drop_eq_nil_of_le (by omega), chunkArray_nil,
        List.append_nil]

/-- C1: for every list and every batch size > 0, chunkArray returns
ceil(N/size) groups, each nonempty and of at most size elements, all but the
last of exactly size elements, whose concatenation in order is the original
list; the empty list yields the empty output. -/
theorem C1_chunkArray_correct (xs : List α) (size : ℕ) (h : 0 < size) :
    (chunkArray xs size).length = (xs.length + size - 1) / size ∧
    (∀ c ∈ chunkArray xs size, c ≠ [] ∧ c.length ≤ size) ∧
    (∀ i, i + 1 < (chunkArray xs size).length →
      ((chunkArray xs size).getD i []).length = size) ∧
    (chunkArray xs size).flatten = xs ∧
    chunkArray ([] : List α) size = [] := by
  obtain ⟨s, rfl⟩ : ∃ s, size = s + 1 := ⟨size - 1, by omega⟩
  refine ⟨?_, chunkArray_mem s xs, chunkArray_full s xs, chunkArray_join s xs,
    chunkArray_nil _⟩
  rw [chunkArray_length]
  have harith : xs.length + (s + 1) - 1 = xs.length + s := by omega
  rw [harith]

/-- Witness for C1 at the list [1,2,3,4,5] with size 2. -/
theorem C1_chunkArray_correct_witness :
    (0 < 2) ∧
    ((chunkArray [1, 2, 3, 4, 5] 2).length = ([1, 2, 3, 4, 5].length + 2 - 1) / 2 ∧
     (∀ c ∈ chunkArray [1, 2, 3, 4, 5] 2, c ≠ [] ∧ c.length ≤ 2) ∧
     (∀ i, i + 1 < (chunkArray [1, 2, 3, 4, 5] 2).length →
       ((chunkArray [1, 2, 3, 4, 5] 2).getD i []).length = 2) ∧
     (chunkArray [1, 2, 3, 4, 5] 2).flatten = [1, 2, 3, 4, 5] ∧
     chunkArray ([] : List ℕ) 2 = []) :=
  ⟨by decide, C1_chunkArray_correct [1, 2, 3, 4, 5] 2 (by decide)⟩

/-- With size = 0, the chunkArray loop never leaves index 0: every amount of
fuel is exhausted, i.e. the JS loop does not terminate on that input. -/
def chunkLoopDiverges (array : List α) (size : ℤ) : Prop :=
  ∀ fuel, chunkArrayFuel fuel array size 0 [] = none

theorem chunkArrayFuel_zero_size_aux :
    ∀ (fuel : ℕ) (acc : List (List ℕ)), chunkArrayFuel fuel [0] 0 0 acc = none := by
  intro fuel
  induction fuel with
  | zero => intro acc; rfl
  | succ f ih =>
    intro acc
    rw [chunkArrayFuel, if_pos (by norm_num)]
    exact ih _

/-- C9 counterexample: on the one-element array [0] with size 0 the loop in
chunkArray does not terminate, so chunkArray is not total over every integer
size. -/
theorem C9_counterexample : chunkLoopDiverges [0] (0 : ℤ) := fun fuel =>
  chunkArrayFuel_zero_size_aux fuel []

/-- C9 (amended): chunkArray is a pure deterministic function and, for every
positive size, the source loop terminates on every list and computes
chunkArray; the empty list yields the empty output. -/
theorem C9_chunkArray_total (xs : List α) (size : ℕ) (h : 0 < size) :
    (∃ fuel, chunkArrayFuel fuel xs (size : ℤ) 0 [] = some (chunkArray xs size)) ∧
    chunkArray ([] : List α) size = [] := by
  obtain ⟨s, rfl⟩ : ∃ s, size = s + 1 := ⟨size - 1, by omega⟩
  refine ⟨?_, chunkArray_nil _⟩
  obtain ⟨fuel, hf⟩ := chunkArrayFuel_spec s xs xs.length 0 [] (by omega)
  refine ⟨fuel, ?_⟩
  have hc : ((s + 1 : ℕ) : ℤ) = (s : ℤ) + 1 := by push_cast; ring
  rw [hc]
  simpa using hf

/-- Witness for C9 at the list [1,2,3] with size 2. -/
theorem C9_chunkArray_total_witness :
    (0 < 2) ∧
    ((∃ fuel, chunkArrayFuel fuel [1, 2, 3] ((2 : ℕ) : ℤ) 0 [] =
        some (chunkArray [1, 2, 3] 2)) ∧
     chunkArray ([] : List ℕ) 2 = []) :=
  ⟨by decide, C9_chunkArray_total [1, 2, 3] 2 (by decide)⟩

/-- Outcome of one call to sendAndConfirmTransaction (src/distribute.ts
lines 139-147), as seen by the catch handler: either a signature or a thrown
error message. -/
inductive AttemptResult where
  | ok (signature : String)
  | err (message : String)
deriving DecidableEq

/-- One SystemProgram.transfer instruction (src/distribute.ts lines 127-133). -/
structure TransferInstruction where
  fromPubkey : String
  toPubkey : String
  lamports : ℤ
deriving DecidableEq

/-- Return value of sendBatchTransaction (src/distribute.ts line 122). -/
structure SendResult where
  success : Bool
  signature : Option String
  error : Option String
deriving DecidableEq

/-- Observable step of sendBatchTransaction: one transaction submission
carrying its instructions, or one timed sleep. -/
inductive SendEvent where
  | submit (instructions : List TransferInstruction)
  | sleep (ms : ℕ)
deriving DecidableEq

/-- The instruction list built inside sendBatchTransaction (src/distribute.ts
lines 124-133): the SOL amount is converted to lamports once with Math.floor,
then one transfer instruction per recipient uses that same value. -/
def batchInstructions (sender : String) (recipients : List String)
    (amountPerRecipient : ℚ) : List TransferInstruction :=
  let lamports : ℤ := ⌊amountPerRecipient * (LAMPORTS_PER_SOL : ℚ)⌋
  recipients.map fun recipientAddress =>
    { fromPubkey := sender, toPubkey := recipientAddress, lamports := lamports }

/-- sendBatchTransaction (src/distribute.ts lines 116-163). The network is an
oracle net giving the outcome of each attempt (indexed by retryCount); the
function also returns the trace of submissions and sleeps it performs. On an
error with retryCount < MAX_RETRIES it sleeps 1000 * (retryCount + 1) ms and
resubmits the same batch; after exhausting retries it returns a failure value
carrying the last error message. -/
def sendBatchTransaction (net : ℕ → AttemptResult) (sender : String)
    (recipients : List String) (amountPerRecipient : ℚ) (retryCount : ℕ) :
    SendResult × List SendEvent :=
  let instructions := batchInstructions sender recipients amountPerRecipient
  match net retryCount with
  | .ok signature =>
      ({ success := true, signature := some signature, error := none },
       [.submit instructions])
  | .err errorMessage =>
      if retryCount < MAX_RETRIES then
        let rest := sendBatchTransaction net sender recipients amountPerRecipient
          (retryCount + 1)
        (rest.1, .submit instructions :: .sleep (1000 * (retryCount + 1)) :: rest.2)
      else
        ({ success := false, signature := none, error := some errorMessage },
         [.submit instructions])
termination_by MAX_RETRIES + 1 - retryCount
decreasing_by simp [MAX_RETRIES] at *; omega

/-- Shape of a bounded-retry trace that starts at attempt number start and
performs m retries: each submission carries the same instructions, and the
sleep before retry number n (1-based) lasts 1000 * n milliseconds. -/
def retryTrace (instructions : List TransferInstruction) (start m : ℕ) :
    List SendEvent :=
  match m with
  | 0 => [.submit instructions]
  | m + 1 =>
      .submit instructions :: .sleep (1000 * (start + 1)) ::
        retryTrace instructions (start + 1) m

theorem sendBatchTransaction_trace (net : ℕ → AttemptResult) (sender : String)
    (recipients : List String) (amountPerRecipient : ℚ) :
    ∀ n r, MAX_RETRIES - r ≤ n → r ≤ MAX_RETRIES →
      ∃ m, r + m ≤ MAX_RETRIES ∧
        (∀ k, r ≤ k → k < r + m → ∃ e, net k = .err e) ∧
        (r + m = MAX_RETRIES ∨ ∃ sig, net (r + m) = .ok sig) ∧
        (sendBatchTransaction net sender recipients amountPerRecipient r).2 =
          retryTrace (batchInstructions sender recipients amountPerRecipient) r m := by
  intro n
  induction n with
  | zero =>
    intro r hn hr
    have hreq : r = MAX_RETRIES := by omega
    subst hreq
    cases hnet : net MAX_RETRIES with
    | ok sig =>
      refine ⟨0, by omega, by omega, Or.inr ⟨sig, by simpa using hnet⟩, ?_⟩
      rw [sendBatchTransaction.eq_def]
      simp only [hnet]
      rfl
    | err msg =>
      refine ⟨0, by omega, by omega, Or.inl (by omega), ?_⟩
      rw [sendBatchTransaction.eq_def]
      simp only [hnet, lt_irrefl, if_neg]
      rfl
  | succ n ih =>
    intro r hn hr
    cases hnet : net r with
    | ok sig =>
      refine ⟨0, by omega, by omega, Or.inr ⟨sig, by simpa using hnet⟩, ?_⟩
      rw [sendBatchTransaction.eq_def]
      simp only [hnet]
      rfl
    | err msg =>
      by_cases hlt : r < MAX_RETRIES
      · obtain ⟨m, hm1, hm2, hm3, hm4⟩ := ih (r + 1) (by omega) (by omega)
        refine ⟨m + 1, by omega, ?_, ?_, ?_⟩
        · intro k hk1 hk2
          by_cases hkr : k = r
          · exact ⟨msg, by rw [hkr, hnet]⟩
          · exact hm2 k (by omega) (by omega)
        · have harith : r + (m + 1) = r + 1 + m := by omega
          rw [harith]
          exact hm3
        · rw [sendBatchTransaction.eq_def]
          simp only [hnet, if_pos hlt]
          rw [retryTrace]
          simp only [List.cons.injEq, true_and]
          exact hm4
      · have hreq : r = MAX_RETRIES := by omega
        refine ⟨0, by omega, by omega, Or.inl (by omega), ?_⟩
        rw [sendBatchTransaction.eq_def]
        simp only [hnet, if_neg hlt]
        rfl

/-- C4: whatever the network does, sendBatchTransaction performs some number m
of retries with m at most MAX_RETRIES; every retried attempt was preceded by an
error, retries stop at the first success (or when MAX_RETRIES is reached), and
the full trace is retryTrace: every submission carries the identical
instruction list (same recipients, same per-recipient amount) and the sleep
before retry number n lasts exactly 1000 * n milliseconds. -/
theorem C4_retry_backoff (net : ℕ → AttemptResult) (sender : String)
    (recipients : List String) (amountPerRecipient : ℚ) :
    ∃ m, m ≤ MAX_RETRIES ∧
      (∀ k, k < m → ∃ e, net k = .err e) ∧
      (m = MAX_RETRIES ∨ ∃ sig, net m = .ok sig) ∧
      (sendBatchTransaction net sender recipients amountPerRecipient 0).2 =
        retryTrace (batchInstructions sender recipients amountPerRecipient) 0 m := by
  obtain ⟨m, h1, h2, h3, h4⟩ :=
    sendBatchTransaction_trace net sender recipients amountPerRecipient MAX_RETRIES 0
      (by omega) (by omega)
  rw [Nat.zero_add] at h1 h3
  exact ⟨m, h1, fun k hk => h2 k (by omega) (by omega), h3, h4⟩

theorem sendBatchTransaction_allfail (net : ℕ → AttemptResult) (msgs : ℕ → String)
    (sender : String) (recipients : List String) (amountPerRecipient : ℚ)
    (h : ∀ k, k ≤ MAX_RETRIES → net k = .err (msgs k)) :
    ∀ n r, MAX_RETRIES - r ≤ n → r ≤ MAX_RETRIES →
      (sendBatchTransaction net sender recipients amountPerRecipient r).1 =
        { success := false, signature := none, error := some (msgs MAX_RETRIES) } := by
  intro n
  induction n with
  | zero =>
    intro r hn hr
    have hreq : r = MAX_RETRIES := by omega
    subst hreq
    rw [sendBatchTransaction.eq_def, h MAX_RETRIES le_rfl]
    simp
  | succ n ih =>
    intro r hn hr
    by_cases hlt : r < MAX_RETRIES
    · rw [sendBatchTransaction.eq_def, h r (by omega)]
      simp only [if_pos hlt]
      exact ih (r + 1) (by omega) (by omega)
    · have hreq : r = MAX_RETRIES := by omega
      subst hreq
      rw [sendBatchTransaction.eq_def, h MAX_RETRIES le_rfl]
      simp

/-- Successful transaction record (src/distribute.ts lines 28-32). -/
structure TransactionResult where
  addresses : List String
  signature : String
  solscanUrl : String
deriving DecidableEq

/-- Failed transfer record (src/distribute.ts lines 34-38). -/
structure FailedTransfer where
  address : String
  error : String
  retries : ℕ
deriving DecidableEq

/-- The shared results accumulator (src/distribute.ts lines 262-267). -/
structure Results where
  successful : ℕ
  failed : ℕ
  transactions : List TransactionResult
  failures : List FailedTransfer
deriving DecidableEq

/-- The zero-initialised accumulator of src/distribute.ts lines 262-267. -/
def initialResults : Results :=
  { successful := 0, failed := 0, transactions := [], failures := [] }

/-- processBatch (src/distribute.ts lines 168-211). The batchIndex and
totalBatches arguments only feed console output and are omitted. JS truthiness
of result.signature (undefined and the empty string are both falsy) is
modelled by comparing the defaulted signature with the empty string. -/
def processBatch (net : ℕ → AttemptResult) (sender : String) (batch : List String)
    (amountPerRecipient : ℚ) (results : Results) : Results :=
  let result := (sendBatchTransaction net sender batch amountPerRecipient 0).1
  if result.success && result.signature.getD "" != "" then
    { results with
      successful := results.successful + batch.length
      transactions := results.transactions ++
        [{ addresses := batch, signature := result.signature.getD "",
           solscanUrl := "https://solscan.io/tx/" ++ result.signature.getD "" ++
             "?cluster=devnet" }] }
  else
    { results with
      failed := results.failed + batch.length
      failures := results.failures ++ batch.map fun address =>
        { address := address, error := result.error.getD "Unknown error",
          retries := MAX_RETRIES } }

/-- C2: if every attempt up to MAX_RETRIES fails, sendBatchTransaction returns
a failure value - data, not a raised exception - whose error is the final
attempt's message, and processBatch appends one failure entry per address of
the batch, each carrying that final message and a retry count of exactly
MAX_RETRIES, while adding the batch size to the failed counter. -/
theorem C2_exhausted_retries (net : ℕ → AttemptResult) (msgs : ℕ → String)
    (sender : String) (batch : List String) (amountPerRecipient : ℚ)
    (results : Results)
    (h : ∀ k, k ≤ MAX_RETRIES → net k = .err (msgs k)) :
    (sendBatchTransaction net sender batch amountPerRecipient 0).1 =
      { success := false, signature := none, error := some (msgs MAX_RETRIES) } ∧
    (processBatch net sender batch amountPerRecipient results).failures =
      results.failures ++ batch.map (fun address =>
        { address := address, error := msgs MAX_RETRIES, retries := MAX_RETRIES }) ∧
    (processBatch net sender batch amountPerRecipient results).failed =
      results.failed + batch.length := by
  have hsend := sendBatchTransaction_allfail net msgs sender batch amountPerRecipient h
    MAX_RETRIES 0 (by omega) (by omega)
  refine ⟨hsend, ?_, ?_⟩ <;>
    simp [processBatch, hsend]

/-- Witness for C2: a network that fails every attempt with message boom. -/
theorem C2_exhausted_retries_witness :
    (sendBatchTransaction (fun _ => .err "boom") "snd" ["a1", "a2"] (1 / 2) 0).1 =
      { success := false, signature := none, error := some "boom" } ∧
    (processBatch (fun _ => .err "boom") "snd" ["a1", "a2"] (1 / 2)
        initialResults).failures =
      initialResults.failures ++ ["a1", "a2"].map (fun address =>
        { address := address, error := "boom", retries := MAX_RETRIES }) ∧
    (processBatch (fun _ => .err "boom") "snd" ["a1", "a2"] (1 / 2)
        initialResults).failed =
      initialResults.failed + ["a1", "a2"].length :=
  C2_exhausted_retries (fun _ => .err "boom") (fun _ => "boom") "snd" ["a1", "a2"]
    (1 / 2) initialResults (fun _ _ => rfl)

/-- C6: every transfer instruction of a batch carries the one lamports value
computed by flooring amountPerRecipient * LAMPORTS_PER_SOL, that value never
exceeds amountPerRecipient * LAMPORTS_PER_SOL, and the instructions target
exactly the batch's recipients in order. -/
theorem C6_lamports_floor (sender : String) (recipients : List String)
    (amountPerRecipient : ℚ) :
    (∀ ins ∈ batchInstructions sender recipients amountPerRecipient,
      ins.lamports = ⌊amountPerRecipient * (LAMPORTS_PER_SOL : ℚ)⌋ ∧
      (ins.lamports : ℚ) ≤ amountPerRecipient * (LAMPORTS_PER_SOL : ℚ)) ∧
    (batchInstructions sender recipients amountPerRecipient).map
      TransferInstruction.toPubkey = recipients := by
  constructor
  · intro ins hins
    simp only [batchInstructions, List.mem_map] at hins
    obtain ⟨r, hr, rfl⟩ := hins
    exact ⟨rfl, Int.floor_le _⟩
  · simp only [batchInstructions, List.map_map]
    exact List.map_id recipients

/-- isValidAddress (src/distribute.ts lines 86-93). The PublicKey constructor
belongs to the external web3.js library, so it is passed in as a decoder that
either returns a key of an arbitrary type K or throws an error message,
modelled as Except. The repository code wraps the constructor in try/catch
and returns a Bool. -/
def isValidAddress (newPublicKey : String → Except String K) (address : String) : Bool :=
  match newPublicKey address with
  | .ok _ => true
  | .error _ => false

/-- C7: isValidAddress is a total boolean function of its input - the
constructor's exception is caught, never propagated: it returns true exactly
when the decoder accepts the string and false exactly when the decoder
throws, for every input string including the empty and malformed ones. -/
theorem C7_isValidAddress_total {K : Type} (newPublicKey : String → Except String K)
    (address : String) :
    (isValidAddress newPublicKey address = true ↔
      ∃ k, newPublicKey address = .ok k) ∧
    (isValidAddress newPublicKey address = false ↔
      ∃ e, newPublicKey address = .error e) := by
  cases h : newPublicKey address <;> simp [isValidAddress, h]

/-- The invalid-address scan of distributeSol (src/distribute.ts lines
243-248): walk the recipients with their index and push one report line,
Row (index + 2): address, per invalid address. -/
def invalidAddressReport (isValid : String → Bool) :
    List String → ℕ → List String
  | [], _ => []
  | address :: rest, index =>
      (if !(isValid address) then
        ["Row " ++ toString (index + 2) ++ ": " ++ address]
      else []) ++ invalidAddressReport isValid rest (index + 1)

theorem invalidAddressReport_mem (isValid : String → Bool) :
    ∀ (rs : List String) (start i : ℕ) (h : i < rs.length),
      isValid (rs.get ⟨i, h⟩) = false →
      ("Row " ++ toString (start + i + 2) ++ ": " ++ rs.get ⟨i, h⟩) ∈
        invalidAddressReport isValid rs start := by
  intro rs
  induction rs with
  | nil =>
    intro start i h
    simp at h
  | cons a rest ih =>
    intro start i h hinv
    match i with
    | 0 =>
      simp only [List.get] at hinv ⊢
      rw [invalidAddressReport]
      rw [hinv]
      simp
    | i + 1 =>
      simp only [List.get] at hinv ⊢
      rw [invalidAddressReport]
      refine List.mem_append_right _ ?_
      have hrec := ih (start + 1) i (by simpa using Nat.lt_of_succ_lt_succ h) hinv
      have harith : start + 1 + i + 2 = start + (i + 1) + 2 := by omega
      rw [harith] at hrec
      exact hrec

theorem invalidAddressReport_ne_nil (isValid : String → Bool) :
    ∀ (rs : List String) (start : ℕ), (∃ a ∈ rs, isValid a = false) →
      invalidAddressReport isValid rs start ≠ [] := by
  intro rs
  induction rs with
  | nil =>
    intro start h
    simp at h
  | cons a rest ih =>
    rintro start ⟨b, hb, hbv⟩ hnil
    rw [invalidAddressReport] at hnil
    rcases List.append_eq_nil.mp hnil with ⟨h1, h2⟩
    rcases List.mem_cons.mp hb with rfl | hb2
    · rw [hbv] at h1
      simp at h1
    · exact ih (start + 1) ⟨b, hb2, hbv⟩ h2

/-- The Promise.all fan-out of one concurrency group (src/distribute.ts lines
277-289): every batch of the group is handed to processBatch with its absolute
batch index, and the shared accumulator receives each batch's contribution by
the time the group's join resolves. Completion order may vary at run time, but
each batch's contribution depends only on that batch, so the accumulator is
modelled in submission order. -/
def processGroup (netFor : ℕ → ℕ → AttemptResult) (sender : String)
    (amountPerRecipient : ℚ) : ℕ → List (List String) → Results → Results
  | _, [], results => results
  | startIndex, batch :: rest, results =>
      processGroup netFor sender amountPerRecipient (startIndex + 1) rest
        (processBatch (netFor startIndex) sender batch amountPerRecipient results)

/-- Observable step of the orchestration loop (src/distribute.ts lines
273-299): one concurrency group processed in parallel, or the cooldown sleep
between groups. -/
inductive OrchEvent where
  | group (batches : List (List String))
  | cooldown (ms : ℕ)
deriving DecidableEq

/-- The batch-group loop of distributeSol (src/distribute.ts lines 273-299):
take the next CONCURRENT_BATCHES batches as one group, process the whole group,
and sleep 500 ms only if batches remain after the group (the source condition
i + CONCURRENT_BATCHES < batches.length). Returns the final accumulator and
the trace of groups and cooldowns. -/
def runGroups (netFor : ℕ → ℕ → AttemptResult) (sender : String)
    (amountPerRecipient : ℚ) (batches : List (List String)) (i : ℕ)
    (results : Results) : Results × List OrchEvent :=
  if h : batches = [] then (results, [])
  else
    let batchGroup := batches.take CONCURRENT_BATCHES
    let rest := batches.drop CONCURRENT_BATCHES
    let results1 := processGroup netFor sender amountPerRecipient i batchGroup results
    if rest = [] then (results1, [.group batchGroup])
    else
      let next := runGroups netFor sender amountPerRecipient rest
        (i + CONCURRENT_BATCHES) results1
      (next.1, .group batchGroup :: .cooldown 500 :: next.2)
termination_by batches.length
decreasing_by
  simp only [List.length_drop]
  have hpos : 0 < batches.length := List.length_pos.mpr h
  simp [CONCURRENT_BATCHES]
  omega

/-- A run-aborting error thrown by distributeSol: insufficient balance
(src/distribute.ts line 238) or invalid addresses (line 253). The data the
thrown message is formatted from is carried structurally. -/
inductive DistError where
  | insufficientBalance (needed : ℚ)
  | invalidAddresses (report : List String)
deriving DecidableEq

/-- Outcome of one distributeSol run: the thrown error or the final results,
together with the trace of group submissions and cooldowns performed. -/
structure DistRun where
  outcome : Except DistError Results
  trace : List OrchEvent

/-- distributeSol (src/distribute.ts lines 216-337): first the balance check
from the single getBalance snapshot (senderBalance, in lamports), then the
validation of all addresses, then chunking into batches and the group loop.
Abort paths perform no submissions, hence their empty trace. -/
def distributeSol (isValid : String → Bool) (netFor : ℕ → ℕ → AttemptResult)
    (sender : String) (senderBalance : ℕ) (recipients : List String)
    (amountPerRecipient : ℚ) : DistRun :=
  let senderBalanceSOL : ℚ := (senderBalance : ℚ) / (LAMPORTS_PER_SOL : ℚ)
  let totalRequired : ℚ := amountPerRecipient * (recipients.length : ℚ)
  if senderBalanceSOL < totalRequired + 1 / 100 then
    { outcome := .error (.insufficientBalance (totalRequired + 1 / 100)),
      trace := [] }
  else
    let invalidAddresses := invalidAddressReport isValid recipients 0
    if invalidAddresses ≠ [] then
      { outcome := .error (.invalidAddresses invalidAddresses), trace := [] }
    else
      let batches := chunkArray recipients BATCH_SIZE
      let run := runGroups netFor sender amountPerRecipient batches 0 initialResults
      { outcome := .ok run.1, trace := run.2 }

/-- C5: distributeSol computes required = amountPerRecipient * recipientCount
from the one balance snapshot it is given and aborts with the
insufficient-balance error exactly when the balance in SOL is below
required + 0.01. The abort precedes validation - the outcome is the same for
every validator - and precedes any submission - the trace is empty; when the
balance suffices the run proceeds past the balance check. -/
theorem C5_balance_check (isValid : String → Bool) (netFor : ℕ → ℕ → AttemptResult)
    (sender : String) (senderBalance : ℕ) (recipients : List String)
    (amountPerRecipient : ℚ) :
    ((∃ r, (distributeSol isValid netFor sender senderBalance recipients
        amountPerRecipient).outcome = .error (.insufficientBalance r)) ↔
      (senderBalance : ℚ) / (LAMPORTS_PER_SOL : ℚ) <
        amountPerRecipient * (recipients.length : ℚ) + 1 / 100) ∧
    ((senderBalance : ℚ) / (LAMPORTS_PER_SOL : ℚ) <
        amountPerRecipient * (recipients.length : ℚ) + 1 / 100 →
      distributeSol isValid netFor sender senderBalance recipients
          amountPerRecipient =
        { outcome := .error (.insufficientBalance
            (amountPerRecipient * (recipients.length : ℚ) + 1 / 100)),
          trace := [] }) := by
  by_cases hb : (senderBalance : ℚ) / (LAMPORTS_PER_SOL : ℚ) <
      amountPerRecipient * (recipients.length : ℚ) + 1 / 100
  · have heq : distributeSol isValid netFor sender senderBalance recipients
        amountPerRecipient =
        { outcome := .error (.insufficientBalance
            (amountPerRecipient * (recipients.length : ℚ) + 1 / 100)),
          trace := [] } := by
      simp only [distributeSol]
      rw [if_pos hb]
    exact ⟨⟨fun _ => hb,
      fun _ => ⟨amountPerRecipient * (recipients.length : ℚ) + 1 / 100,
        by rw [heq]⟩⟩, fun _ => heq⟩
  · refine ⟨⟨?_, fun hcon => absurd hcon hb⟩, fun hcon => absurd hcon hb⟩
    rintro ⟨r, hr⟩
    simp only [distributeSol] at hr
    rw [if_neg hb] at hr
    by_cases hv : invalidAddressReport isValid recipients 0 ≠ []
    · rw [if_pos hv] at hr
      simp at hr
    · rw [if_neg hv] at hr
      simp at hr

/-- Witness for C5: zero balance, one recipient, one SOL each. -/
theorem C5_balance_check_witness :
    ∃ r, (distributeSol (fun _ => true) (fun _ _ => .err "e") "snd" 0 ["a"]
        1).outcome = .error (.insufficientBalance r) :=
  (C5_balance_check (fun _ => true) (fun _ _ => .err "e") "snd" 0 ["a"] 1).1.mpr
    (by norm_num [LAMPORTS_PER_SOL])

/-- C3 counterexample: with a sender balance of 0 lamports, a single invalid
recipient and amount 1 SOL, distributeSol aborts with the insufficient-balance
error, whose report is not an invalid-address report: the claimed
unconditional listing of invalid addresses fails when the balance check
aborts first. -/
theorem C3_counterexample :
    (∃ a ∈ ["x"], (fun _ => false : String → Bool) a = false) ∧
    (distributeSol (fun _ => false) (fun _ _ => .err "e") "snd" 0 ["x"]
        1).outcome = .error (.insufficientBalance
          (1 * (((["x"] : List String).length : ℕ) : ℚ) + 1 / 100)) ∧
    (∀ report, DistError.insufficientBalance
        (1 * (((["x"] : List String).length : ℕ) : ℚ) + 1 / 100) ≠
      DistError.invalidAddresses report) := by
  refine ⟨⟨"x", by simp, rfl⟩, ?_, fun report h => by cases h⟩
  have hb : ((0 : ℕ) : ℚ) / (LAMPORTS_PER_SOL : ℚ) <
      1 * (((["x"] : List String).length : ℕ) : ℚ) + 1 / 100 := by
    norm_num [LAMPORTS_PER_SOL]
  simp only [distributeSol]
  rw [if_pos hb]

/-- C3 (amended): when the balance pre-check passes, a recipient list
containing at least one invalid address makes distributeSol abort before any
batch submission (empty trace) with the invalid-address report of the full
scan, and that report contains a Row (i + 2) line for every invalid index i -
not only the first. -/
theorem C3_invalid_addresses (isValid : String → Bool)
    (netFor : ℕ → ℕ → AttemptResult) (sender : String) (senderBalance : ℕ)
    (recipients : List String) (amountPerRecipient : ℚ)
    (hbal : ¬ ((senderBalance : ℚ) / (LAMPORTS_PER_SOL : ℚ) <
      amountPerRecipient * (recipients.length : ℚ) + 1 / 100))
    (hinv : ∃ a ∈ recipients, isValid a = false) :
    distributeSol isValid netFor sender senderBalance recipients
        amountPerRecipient =
      { outcome := .error (.invalidAddresses
          (invalidAddressReport isValid recipients 0)), trace := [] } ∧
    ∀ i (h : i < recipients.length), isValid (recipients.get ⟨i, h⟩) = false →
      ("Row " ++ toString (i + 2) ++ ": " ++ recipients.get ⟨i, h⟩) ∈
        invalidAddressReport isValid recipients 0 := by
  constructor
  · have hne := invalidAddressReport_ne_nil isValid recipients 0 hinv
    simp only [distributeSol]
    rw [if_neg hbal, if_pos hne]
  · intro i h hi
    have hmem := invalidAddressReport_mem isValid recipients 0 i h hi
    simpa using hmem

/-- Witness for C3 (amended): ample balance and a single bad address, reported
as row 2. -/
theorem C3_invalid_addresses_witness :
    (distributeSol (fun a => a == "ok") (fun _ _ => .err "e") "snd" 10000000000
        ["bad"] 1 =
      { outcome := .error (.invalidAddresses
          (invalidAddressReport (fun a => a == "ok") ["bad"] 0)), trace := [] }) ∧
    ∀ i (h : i < (["bad"] : List String).length),
      (fun a => a == "ok") ((["bad"] : List String).get ⟨i, h⟩) = false →
      ("Row " ++ toString (i + 2) ++ ": " ++ (["bad"] : List String).get ⟨i, h⟩) ∈
        invalidAddressReport (fun a => a == "ok") ["bad"] 0 :=
  C3_invalid_addresses (fun a => a == "ok") (fun _ _ => .err "e") "snd"
    10000000000 ["bad"] 1 (by norm_num [LAMPORTS_PER_SOL]) ⟨"bad", by simp, rfl⟩

theorem chunkArray_pos (ys : List α) (size : ℕ) (h0 : 0 < size) (h : ys ≠ []) :
    chunkArray ys size = ys.take size :: chunkArray (ys.drop size) size := by
  obtain ⟨s, rfl⟩ : ∃ s, size = s + 1 := ⟨size - 1, by omega⟩
  exact chunkArray_of_ne_nil ys s h

theorem runGroups_nil (netFor : ℕ → ℕ → AttemptResult) (sender : String)
    (amountPerRecipient : ℚ) (i : ℕ) (results : Results) :
    runGroups netFor sender amountPerRecipient [] i results = (results, []) := by
  rw [runGroups]
  rfl

theorem runGroups_last (netFor : ℕ → ℕ → AttemptResult) (sender : String)
    (amountPerRecipient : ℚ) (batches : List (List String)) (i : ℕ)
    (results : Results) (hb : batches ≠ [])
    (hrest : batches.drop CONCURRENT_BATCHES = []) :
    runGroups netFor sender amountPerRecipient batches i results =
      (processGroup netFor sender amountPerRecipient i
        (batches.take CONCURRENT_BATCHES) results,
       [.group (batches.take CONCURRENT_BATCHES)]) := by
  rw [runGroups, dif_neg hb]
  simp only [hrest, if_pos]

theorem runGroups_step (netFor : ℕ → ℕ → AttemptResult) (sender : String)
    (amountPerRecipient : ℚ) (batches : List (List String)) (i : ℕ)
    (results : Results) (hb : batches ≠ [])
    (hrest : batches.drop CONCURRENT_BATCHES ≠ []) :
    runGroups netFor sender amountPerRecipient batches i results =
      ((runGroups netFor sender amountPerRecipient
          (batches.drop CONCURRENT_BATCHES) (i + CONCURRENT_BATCHES)
          (processGroup netFor sender amountPerRecipient i
            (batches.take CONCURRENT_BATCHES) results)).1,
       .group (batches.take CONCURRENT_BATCHES) :: .cooldown 500 ::
        (runGroups netFor sender amountPerRecipient
          (batches.drop CONCURRENT_BATCHES) (i + CONCURRENT_BATCHES)
          (processGroup netFor sender amountPerRecipient i
            (batches.take CONCURRENT_BATCHES) results)).2) := by
  rw [runGroups, dif_neg hb]
  simp [hrest]

theorem runGroups_trace (netFor : ℕ → ℕ → AttemptResult) (sender : String)
    (amountPerRecipient : ℚ) :
    ∀ (n : ℕ) (batches : List (List String)), batches.length ≤ n →
      ∀ (i : ℕ) (results : Results),
      (runGroups netFor sender amountPerRecipient batches i results).2 =
        List.intersperse (.cooldown 500)
          ((chunkArray batches CONCURRENT_BATCHES).map OrchEvent.group) := by
  intro n
  induction n with
  | zero =>
    intro batches h i results
    have hb : batches = [] := List.length_eq_zero.mp (by omega)
    subst hb
    rw [runGroups_nil]
    simp [chunkArray_nil]
  | succ n ih =>
    intro batches h i results
    by_cases hb : batches = []
    · subst hb
      rw [runGroups_nil]
      simp [chunkArray_nil]
    · by_cases hrest : batches.drop CONCURRENT_BATCHES = []
      · rw [runGroups_last netFor sender amountPerRecipient batches i results hb hrest]
        rw [chunkArray_pos batches CONCURRENT_BATCHES
          (by norm_num [CONCURRENT_BATCHES]) hb]
        rw [hrest, chunkArray_nil]
        rfl
      · rw [runGroups_step netFor sender amountPerRecipient batches i results hb hrest]
        have hlen : (batches.drop CONCURRENT_BATCHES).length ≤ n := by
          have hpos : 0 < batches.length := List.length_pos.mpr hb
          simp only [List.length_drop, CONCURRENT_BATCHES]
          omega
        have hih := ih (batches.drop CONCURRENT_BATCHES) hlen
          (i + CONCURRENT_BATCHES)
          (processGroup netFor sender amountPerRecipient i
            (batches.take CONCURRENT_BATCHES) results)
        rw [chunkArray_pos batches CONCURRENT_BATCHES
          (by norm_num [CONCURRENT_BATCHES]) hb]
        obtain ⟨d, ds, hds⟩ : ∃ d ds,
            chunkArray (batches.drop CONCURRENT_BATCHES) CONCURRENT_BATCHES =
              d :: ds := by
          rw [chunkArray_pos (batches.drop CONCURRENT_BATCHES) CONCURRENT_BATCHES
            (by norm_num [CONCURRENT_BATCHES]) hrest]
          exact ⟨_, _, rfl⟩
        rw [hds] at hih ⊢
        simp only [List.map_cons, List.intersperse_cons_cons]
        simp only [List.cons.injEq, true_and]
        rw [← List.map_cons]
        exact hih

/-- C8: the orchestration loop partitions the ordered batch sequence into
consecutive groups of CONCURRENT_BATCHES (the last possibly smaller), handles
the groups strictly one after the other, and its trace is exactly the group
events separated by single 500 ms cooldowns: no cooldown inside a group and
none after the last group. distributeSol either aborts with an empty trace or
produces exactly that trace over the batches chunked from the recipients. -/
theorem C8_group_schedule (netFor : ℕ → ℕ → AttemptResult) (sender : String)
    (amountPerRecipient : ℚ) (batches : List (List String)) (i : ℕ)
    (results : Results) :
    ((runGroups netFor sender amountPerRecipient batches i results).2 =
      List.intersperse (.cooldown 500)
        ((chunkArray batches CONCURRENT_BATCHES).map OrchEvent.group)) ∧
    (∀ (isValid : String → Bool) (senderBalance : ℕ) (recipients : List String),
      (distributeSol isValid netFor sender senderBalance recipients
          amountPerRecipient).trace = [] ∨
      (distributeSol isValid netFor sender senderBalance recipients
          amountPerRecipient).trace =
        (runGroups netFor sender amountPerRecipient
          (chunkArray recipients BATCH_SIZE) 0 initialResults).2) := by
  refine ⟨runGroups_trace netFor sender amountPerRecipient batches.length batches
    le_rfl i results, ?_⟩
  intro isValid senderBalance recipients
  simp only [distributeSol]
  by_cases hb : (senderBalance : ℚ) / (LAMPORTS_PER_SOL : ℚ) <
      amountPerRecipient * (recipients.length : ℚ) + 1 / 100
  · rw [if_pos hb]
    exact Or.inl rfl
  · rw [if_neg hb]
    by_cases hv : invalidAddressReport isValid recipients 0 ≠ []
    · rw [if_pos hv]
      exact Or.inl rfl
    · rw [if_neg hv]
      exact Or.inr rfl

theorem processBatch_counters (net : ℕ → AttemptResult) (sender : String)
    (batch : List String) (amountPerRecipient : ℚ) (results : Results) :
    ((processBatch net sender batch amountPerRecipient results).successful =
        results.successful + batch.length ∧
      (processBatch net sender batch amountPerRecipient results).failed =
        results.failed) ∨
    ((processBatch net sender batch amountPerRecipient results).successful =
        results.successful ∧
      (processBatch net sender batch amountPerRecipient results).failed =
        results.failed + batch.length) := by
  by_cases hcond : ((sendBatchTransaction net sender batch amountPerRecipient 0).1.success
      && ((sendBatchTransaction net sender batch amountPerRecipient
        0).1.signature.getD "" != "")) = true
  · left
    constructor <;> simp [processBatch, hcond]
  · right
    constructor <;> simp [processBatch, hcond]

theorem processGroup_counters (netFor : ℕ → ℕ → AttemptResult) (sender : String)
    (amountPerRecipient : ℚ) :
    ∀ (group : List (List String)) (startIndex : ℕ) (results : Results),
      (processGroup netFor sender amountPerRecipient startIndex group
          results).successful +
        (processGroup netFor sender amountPerRecipient startIndex group
          results).failed =
      results.successful + results.failed + (group.map List.length).sum := by
  intro group
  induction group with
  | nil =>
    intro startIndex results
    simp [processGroup]
  | cons b rest ih =>
    intro startIndex results
    rw [processGroup, ih]
    rcases processBatch_counters (netFor startIndex) sender b amountPerRecipient
      results with ⟨h1, h2⟩ | ⟨h1, h2⟩ <;>
      rw [h1, h2] <;> simp <;> omega

theorem runGroups_counters (netFor : ℕ → ℕ → AttemptResult) (sender : String)
    (amountPerRecipient : ℚ) :
    ∀ (n : ℕ) (batches : List (List String)), batches.length ≤ n →
      ∀ (i : ℕ) (results : Results),
      (runGroups netFor sender amountPerRecipient batches i results).1.successful +
        (runGroups netFor sender amountPerRecipient batches i results).1.failed =
      results.successful + results.failed + (batches.map List.length).sum := by
  intro n
  induction n with
  | zero =>
    intro batches h i results
    have hb : batches = [] := List.length_eq_zero.mp (by omega)
    subst hb
    rw [runGroups]
    simp
  | succ n ih =>
    intro batches h i results
    by_cases hb : batches = []
    · subst hb
      rw [runGroups]
      simp
    · rw [runGroups, dif_neg hb]
      have hsplit : ((batches.take CONCURRENT_BATCHES).map List.length).sum +
          ((batches.drop CONCURRENT_BATCHES).map List.length).sum =
          (batches.map List.length).sum := by
        rw [← List.sum_append, ← List.map_append, List.take_append_drop]
      by_cases hrest : batches.drop CONCURRENT_BATCHES = []
      · rw [if_pos hrest]
        have hgrp := processGroup_counters netFor sender amountPerRecipient
          (batches.take CONCURRENT_BATCHES) i results
        rw [hrest] at hsplit
        simp only [List.map_nil, List.sum_nil, add_zero] at hsplit
        rw [hsplit] at hgrp
        exact hgrp
      · rw [if_neg hrest]
        have hlen : (batches.drop CONCURRENT_BATCHES).length ≤ n := by
          have hpos : 0 < batches.length := List.length_pos.mpr hb
          simp only [List.length_drop, CONCURRENT_BATCHES]
          omega
        have hih := ih (batches.drop CONCURRENT_BATCHES) hlen
          (i + CONCURRENT_BATCHES)
          (processGroup netFor sender amountPerRecipient i
            (batches.take CONCURRENT_BATCHES) results)
        have hgrp := processGroup_counters netFor sender amountPerRecipient
          (batches.take CONCURRENT_BATCHES) i results
        rw [hgrp] at hih
        rw [hih]
        omega

/-- C10: every batch contributes its recipient count to exactly one of the two
counters - successful on a success outcome, failed otherwise - and over a full
run of all batches chunked from the recipients, successful + failed equals the
total number of recipients: none counted twice, none dropped. -/
theorem C10_accounting (netFor : ℕ → ℕ → AttemptResult) (sender : String)
    (amountPerRecipient : ℚ) (recipients : List String) :
    (∀ (net : ℕ → AttemptResult) (batch : List String) (results : Results),
      ((processBatch net sender batch amountPerRecipient results).successful =
          results.successful + batch.length ∧
        (processBatch net sender batch amountPerRecipient results).failed =
          results.failed) ∨
      ((processBatch net sender batch amountPerRecipient results).successful =
          results.successful ∧
        (processBatch net sender batch amountPerRecipient results).failed =
          results.failed + batch.length)) ∧
    ((runGroups netFor sender amountPerRecipient
        (chunkArray recipients BATCH_SIZE) 0 initialResults).1.successful +
      (runGroups netFor sender amountPerRecipient
        (chunkArray recipients BATCH_SIZE) 0 initialResults).1.failed =
      recipients.length) := by
  refine ⟨fun net batch results =>
    processBatch_counters net sender batch amountPerRecipient results, ?_⟩
  rw [runGroups_counters netFor sender amountPerRecipient
    (chunkArray recipients BATCH_SIZE).length (chunkArray recipients BATCH_SIZE)
    le_rfl 0 initialResults]
  simp only [initialResults, Nat.zero_add]
  rw [← List.length_flatten]
  have hbs : BATCH_SIZE = 9 + 1 := rfl
  rw [hbs, chunkArray_join]

end SolDistribute
